import Mathlib

/-
Verification of the fetch-pipeline core of src/lsearch.py against its
natural-language specification.

The program is a single-threaded asyncio scraper.  Pure helpers
(_dedupe_keep_order, _max_page, the pages-list construction, the record
construction in check_deck) are embedded as Lean functions.  The stateful
parts (the FixedPacer rate limiter, the _get fetcher with its fail-fast
announcement, the per-stage exception handlers, and the sequential skeleton
of run) are embedded as explicit state-passing functions or as small-step
transition relations.  Time is modelled with rationals; the external pieces
(the regex engine, urllib query rewriting, the HTTP transport) appear as
oracle inputs or function parameters, mirroring how the spec treats them as
collaborators.
-/

namespace LSearch

/-! ## Deduplicator: _dedupe_keep_order (src/lsearch.py lines 66-71)

Python:
    def _dedupe_keep_order(urls):
        seen, out = set(), []
        for u in urls:
            if u not in seen:
                seen.add(u); out.append(u)
        return out
The membership set is modelled as a list with decidable membership. -/

def dedupeAux (seen : List String) : List String → List String
  | [] => []
  | u :: rest =>
      if u ∈ seen then dedupeAux seen rest
      else u :: dedupeAux (u :: seen) rest

def dedupe_keep_order (urls : List String) : List String :=
  dedupeAux [] urls

theorem dedupeAux_sublist (seen : List String) (l : List String) :
    (dedupeAux seen l).Sublist l := by
  induction l generalizing seen with
  | nil => simp [dedupeAux]
  | cons u rest ih =>
      by_cases h : u ∈ seen
      · simp only [dedupeAux, if_pos h]
        exact (ih seen).trans (List.sublist_cons_self u rest)
      · simp only [dedupeAux, if_neg h]
        exact (ih (u :: seen)).cons₂ u

theorem mem_dedupeAux {seen l : List String} {x : String} :
    x ∈ dedupeAux seen l ↔ x ∈ l ∧ x ∉ seen := by
  induction l generalizing seen with
  | nil => simp [dedupeAux]
  | cons u rest ih =>
      by_cases h : u ∈ seen
      · simp only [dedupeAux, if_pos h, ih, List.mem_cons]
        constructor
        · rintro ⟨hx, hns⟩; exact ⟨Or.inr hx, hns⟩
        · rintro ⟨hx | hx, hns⟩
          · exact absurd (hx ▸ h) hns
          · exact ⟨hx, hns⟩
      · simp only [dedupeAux, if_neg h, List.mem_cons, ih]
        constructor
        · rintro (rfl | ⟨hx, hns⟩)
          · exact ⟨Or.inl rfl, h⟩
          · exact ⟨Or.inr hx, fun hc => hns (Or.inr hc)⟩
        · rintro ⟨hx | hx, hns⟩
          · exact Or.inl hx
          · by_cases hxu : x = u
            · exact Or.inl hxu
            · refine Or.inr ⟨hx, fun hc => ?_⟩
              rcases hc with h1 | h1
              · exact hxu h1
              · exact hns h1

theorem dedupeAux_nodup (seen : List String) (l : List String) :
    (dedupeAux seen l).Nodup := by
  induction l generalizing seen with
  | nil => simp [dedupeAux]
  | cons u rest ih =>
      by_cases h : u ∈ seen
      · simp only [dedupeAux, if_pos h]; exact ih seen
      · simp only [dedupeAux, if_neg h]
        refine List.nodup_cons.mpr ⟨fun hc => ?_, ih (u :: seen)⟩
        exact (mem_dedupeAux.mp hc).2 (List.mem_cons_self u seen)

theorem dedupeAux_eq_self {seen l : List String}
    (hnd : l.Nodup) (hdis : ∀ x ∈ l, x ∉ seen) :
    dedupeAux seen l = l := by
  induction l generalizing seen with
  | nil => simp [dedupeAux]
  | cons u rest ih =>
      have hu : u ∉ seen := hdis u (List.mem_cons_self u rest)
      simp only [dedupeAux, if_neg hu]
      rcases List.nodup_cons.mp hnd with ⟨hurest, hndrest⟩
      congr 1
      refine ih hndrest ?_
      intro x hx hc
      rcases List.mem_cons.mp hc with h1 | h1
      · exact hurest (h1 ▸ hx)
      · exact hdis x (List.mem_cons_of_mem u hx) h1

theorem dedupe_idem (l : List String) :
    dedupe_keep_order (dedupe_keep_order l) = dedupe_keep_order l := by
  unfold dedupe_keep_order
  exact dedupeAux_eq_self (dedupeAux_nodup [] l) (by simp)

/-- The output of the dedupe loop is listed in strictly increasing order of
first occurrence in the remaining input: whenever u precedes v in the
output, the first occurrence of u in the input precedes the first
occurrence of v. -/
theorem dedupeAux_pairwise_indexOf (seen l : List String) :
    (dedupeAux seen l).Pairwise (fun u v => l.indexOf u < l.indexOf v) := by
  induction l generalizing seen with
  | nil => simp [dedupeAux]
  | cons a rest ih =>
      by_cases h : a ∈ seen
      · simp only [dedupeAux, if_pos h]
        rw [List.pairwise_iff_forall_sublist]
        intro u v hsub
        have hu := mem_dedupeAux.mp (hsub.subset (List.mem_cons_self u [v]))
        have hv := mem_dedupeAux.mp (hsub.subset (List.mem_cons_of_mem u (List.mem_cons_self v [])))
        have hua : u ≠ a := fun he => hu.2 (by rw [he]; exact h)
        have hva : v ≠ a := fun he => hv.2 (by rw [he]; exact h)
        rw [List.indexOf_cons_ne rest (Ne.symm hua), List.indexOf_cons_ne rest (Ne.symm hva)]
        exact Nat.succ_lt_succ (List.pairwise_iff_forall_sublist.mp (ih seen) hsub)
      · simp only [dedupeAux, if_neg h]
        refine List.pairwise_cons.mpr ⟨?_, ?_⟩
        · intro v hv
          have hv2 := mem_dedupeAux.mp hv
          have hva : v ≠ a := fun he => hv2.2 (by rw [he]; exact List.mem_cons_self a seen)
          rw [List.indexOf_cons_self, List.indexOf_cons_ne rest (Ne.symm hva)]
          exact Nat.succ_pos _
        · rw [List.pairwise_iff_forall_sublist]
          intro u v hsub
          have hu := mem_dedupeAux.mp (hsub.subset (List.mem_cons_self u [v]))
          have hv := mem_dedupeAux.mp (hsub.subset (List.mem_cons_of_mem u (List.mem_cons_self v [])))
          have hua : u ≠ a := fun he => hu.2 (by rw [he]; exact List.mem_cons_self a seen)
          have hva : v ≠ a := fun he => hv.2 (by rw [he]; exact List.mem_cons_self a seen)
          rw [List.indexOf_cons_ne rest (Ne.symm hua), List.indexOf_cons_ne rest (Ne.symm hva)]
          exact Nat.succ_lt_succ (List.pairwise_iff_forall_sublist.mp (ih (a :: seen)) hsub)

/-- C7: dedupe is a pure, stable first-occurrence filter: for every input
list the output is a duplicate-free sublist of the input with exactly the
same members, listed in strictly increasing order of first occurrence in
the input (its pairwise order matches the order of the first-occurrence
indices, so the first occurrence of each distinct URL is kept in the
original relative order, which rules out any other duplicate-free
reordering of the same members); dedupe is idempotent, and on the concrete
input [a,b,a,c,b] it returns [a,b,c]. -/
theorem dedupe_stable_first_occurrence (l : List String) :
    (dedupe_keep_order l).Sublist l ∧
    (dedupe_keep_order l).Nodup ∧
    (∀ u, u ∈ dedupe_keep_order l ↔ u ∈ l) ∧
    (dedupe_keep_order l).Pairwise (fun u v => l.indexOf u < l.indexOf v) ∧
    dedupe_keep_order (dedupe_keep_order l) = dedupe_keep_order l ∧
    dedupe_keep_order ["a", "b", "a", "c", "b"] = ["a", "b", "c"] := by
  refine ⟨dedupeAux_sublist [] l, dedupeAux_nodup [] l, ?_,
    dedupeAux_pairwise_indexOf [] l, dedupe_idem l, by decide⟩
  intro u
  unfold dedupe_keep_order
  rw [mem_dedupeAux]
  simp

/-! ## Record construction in check_deck (src/lsearch.py lines 278-293)

Python:
    points, wins, losses, ties, dropped = _extract_details(html)
    denom = wins + losses
    win_rate = (wins / denom) if denom > 0 else 0.0
    matches.append({..., "win_rate": win_rate, "played": wins + losses + ties})
Floats are modelled as rationals; the counts extracted by the regexes are
naturals. -/

structure DeckRecord where
  url : String
  player : String
  archetype : String
  points : Nat
  wins : Nat
  losses : Nat
  ties : Nat
  dropped : Bool
  win_rate : ℚ
  played : Nat
  deriving Repr, DecidableEq

def make_match (url player archetype : String) (points wins losses ties : Nat)
    (dropped : Bool) : DeckRecord :=
  let denom := wins + losses
  let win_rate : ℚ := if denom > 0 then (wins : ℚ) / (denom : ℚ) else 0
  ⟨url, player, archetype, points, wins, losses, ties, dropped, win_rate,
    wins + losses + ties⟩

/-- C10: the win_rate field of every record built by the leaf stage is a
guarded division: wins/(wins+losses) when wins+losses > 0 and 0 when
wins+losses = 0 (ties excluded from the denominator), and the played field
equals wins+losses+ties. -/
theorem make_match_win_rate_guarded (url player archetype : String)
    (points wins losses ties : Nat) (dropped : Bool) :
    (0 < wins + losses →
      (make_match url player archetype points wins losses ties dropped).win_rate
        = (wins : ℚ) / ((wins : ℚ) + (losses : ℚ))) ∧
    (wins + losses = 0 →
      (make_match url player archetype points wins losses ties dropped).win_rate = 0) ∧
    (make_match url player archetype points wins losses ties dropped).played
      = wins + losses + ties := by
  refine ⟨fun h => ?_, fun h => ?_, rfl⟩
  · simp only [make_match, if_pos h]
    push_cast
    ring_nf
  · simp [make_match, h]

theorem make_match_win_rate_guarded_witness :
    0 < 2 + 1 ∧
    (make_match "u" "p" "a" 9 2 1 1 false).win_rate = (2 : ℚ) / ((2 : ℚ) + (1 : ℚ)) ∧
    (0 : Nat) + 0 = 0 ∧
    (make_match "u" "p" "a" 0 0 0 3 false).win_rate = 0 := by
  refine ⟨by decide, ?_, rfl, ?_⟩
  · exact (make_match_win_rate_guarded "u" "p" "a" 9 2 1 1 false).1 (by decide)
  · exact (make_match_win_rate_guarded "u" "p" "a" 0 0 0 3 false).2.1 rfl

/-! ## Page count and listing-page synthesis (src/lsearch.py lines 115-117, 219-221)

Python:
    def _max_page(html):
        m = RE_DATA_MAX.search(html)
        return int(m.group(1)) if m else 1
    ...
    maxp = _max_page(first)
    pages = [LIST_URL] + [_set_q(LIST_URL, "page", str(p)) for p in range(2, maxp + 1)]

The regex engine (Python re) is external: the outcome of
RE_DATA_MAX.search, namely the captured digit group converted by int, is the
oracle input (none when the pagination markup is absent).  _set_q rewrites
the query string through urllib; it is passed as an explicit function
parameter, which makes it deterministic by construction. -/

def max_page (dataMax : Option Nat) : Nat :=
  match dataMax with
  | some n => n
  | none => 1

def build_pages (sq : String → String → String → String) (base : String)
    (maxp : Nat) : List String :=
  base :: (List.range' 2 (maxp - 1)).map (fun p => sq base "page" (toString p))

/-- C9 counterexample: the extractor can report a page count of 0 (the
pagination markup data-max="0" matches the digit regex), and then the
Listing-stage input is the single base URL, not 0 URLs, so the input is not
"exactly N URLs" for the reported count N = 0. -/
theorem build_pages_zero_count_counterexample :
    ¬ ((build_pages (fun b _ v => b ++ "&page=" ++ v) "L" (max_page (some 0))).length
        = max_page (some 0)) := by
  decide

/-- C9 amended: the page-count extractor returns the captured integer when
the pagination metadata is present and 1 when it is undeterminable; for a
reported page count N the Listing-stage input is exactly max 1 N URLs: the
base listing URL followed by the URLs for pages 2 through N, each built by
the deterministic query-parameter substitution (for N = 0 the input is the
base URL alone). -/
theorem build_pages_spec (sq : String → String → String → String)
    (base : String) (dm : Option Nat) :
    (∀ n, max_page (some n) = n) ∧ max_page none = 1 ∧
    (build_pages sq base (max_page dm)).length = max 1 (max_page dm) ∧
    (build_pages sq base (max_page dm))[0]? = some base ∧
    (∀ i, i < max_page dm - 1 →
      (build_pages sq base (max_page dm))[i + 1]? = some (sq base "page" (toString (2 + i)))) := by
  refine ⟨fun n => rfl, rfl, ?_, by simp [build_pages], ?_⟩
  · simp only [build_pages, List.length_cons, List.length_map, List.length_range']
    omega
  · intro i hi
    simp only [build_pages, List.getElem?_cons_succ, List.getElem?_map]
    rw [List.getElem?_range' _ _ hi]
    simp

theorem build_pages_spec_witness :
    (3 : Nat) - 1 > 1 ∧
    (build_pages (fun b _ v => b ++ "&page=" ++ v) "L" (max_page (some 3)))[2]?
      = some ("L" ++ "&page=" ++ toString (2 + 1)) := by
  refine ⟨by decide, ?_⟩
  exact (build_pages_spec (fun b _ v => b ++ "&page=" ++ v) "L" (some 3)).2.2.2.2 1 (by decide)

/-! ## Fetcher _get and the per-stage exception handlers
(src/lsearch.py lines 97-113, 226-235, 249-258, 272-297)

Python _get:
    async def _get(session, pacer, url, stop_evt):
        if stop_evt.is_set():
            raise asyncio.CancelledError
        await pacer.acquire()
        try:
            async with session.get(url, ...) as r:
                r.raise_for_status()
                return await r.text()
        except Exception as e:
            if not stop_evt.is_set():
                print(...)          -- fail-fast announcement (url and detail)
                stop_evt.set()
            raise

The HTTP transport is the oracle input net (ok body, or an error detail for
a transport error, timeout or non-success status, which raise_for_status
turns into an exception).  GetCall records the observable effects of one
call: whether pacer.acquire ran and whether a network read was attempted. -/

inductive GetErr where
  | cancelled
  | fetchFailed
  deriving Repr, DecidableEq

structure GetCall where
  acquired : Bool
  netRead : Bool
  result : Except GetErr String
  deriving Repr

def get_model (stop : Bool) (net : Except String String) : GetCall :=
  if stop then ⟨false, false, Except.error GetErr.cancelled⟩
  else
    match net with
    | Except.ok body => ⟨true, true, Except.ok body⟩
    | Except.error _ => ⟨true, true, Except.error GetErr.fetchFailed⟩

/-- C5: every call to the fetcher with the cancellation signal already set
fails immediately with the distinguished already-cancelled error, performs
no network read, and does not invoke the rate-limiter acquire, whatever the
transport would have answered. -/
theorem get_cancelled_before_acquire (net : Except String String) :
    (get_model true net).result = Except.error GetErr.cancelled ∧
    (get_model true net).acquired = false ∧
    (get_model true net).netRead = false := by
  refine ⟨rfl, rfl, rfl⟩

/-! ### Shared error/cancellation state across one run

FState holds the pieces of state shared by all tasks: the cancellation
event stop_evt, the nonlocal error_count, and the list of fail-fast
announcements emitted so far (each carries the failing url and the error
detail; the code prints them as two consecutive lines).

Each exception-handling episode is one atomic event: the event loop is
single threaded and there is no await between an exception leaving
session.get, the except block of _get, and the except block of the calling
task, so no other task can interleave inside one episode.

  - listFail u d   : a fetch failure inside fetch_page or fetch_tourney:
                     _get announces (if stop unset) and sets stop, then the
                     handler runs error_count += 1; stop_evt.set().
  - leafFail u d   : a fetch failure inside check_deck: _get announces and
                     sets stop, then error_count += 1 and stop_evt.set()
                     only if error_count >= FAIL_ON.
  - listExtractFail: a post-fetch failure in fetch_page or fetch_tourney
                     (no announcement, handler as above).
  - leafExtractFail: a post-fetch failure in check_deck (no announcement,
                     thresholded handler).
  - entryCancelled : _get entered with stop set: it raises
                     asyncio.CancelledError before acquiring; in Python 3.8+
                     CancelledError derives from BaseException, so the
                     callers except Exception blocks do not catch it and no
                     counter or signal update runs.  Such an event can only
                     occur when stop is already set. -/

structure FState where
  stop : Bool
  errors : Nat
  out : List (String × String)
  deriving Repr, DecidableEq

def initF : FState := ⟨false, 0, []⟩

/-- The src constant FAIL_ON (src/lsearch.py line 36). -/
def FAIL_ON : Nat := 1

inductive FetchEvent where
  | listFail (url detail : String)
  | leafFail (url detail : String)
  | listExtractFail
  | leafExtractFail
  | entryCancelled
  deriving Repr, DecidableEq

/-- The except block of _get (lines 105-113): announce and set, only when
the signal is not already set. -/
def get_fail_effect (st : FState) (u d : String) : FState :=
  if st.stop then st
  else ⟨true, st.errors, st.out ++ [(u, d)]⟩

/-- The except block of fetch_page and fetch_tourney (lines 233-235,
256-258): unconditional increment and set. -/
def page_handler (st : FState) : FState :=
  ⟨true, st.errors + 1, st.out⟩

/-- The except block of check_deck (lines 294-297): increment, set only at
the threshold. -/
def deck_handler (threshold : Nat) (st : FState) : FState :=
  let st2 : FState := ⟨st.stop, st.errors + 1, st.out⟩
  if threshold ≤ st2.errors then ⟨true, st2.errors, st2.out⟩ else st2

def fetchStep (threshold : Nat) (st : FState) : FetchEvent → FState
  | FetchEvent.listFail u d => page_handler (get_fail_effect st u d)
  | FetchEvent.leafFail u d => deck_handler threshold (get_fail_effect st u d)
  | FetchEvent.listExtractFail => page_handler st
  | FetchEvent.leafExtractFail => deck_handler threshold st
  | FetchEvent.entryCancelled => st

def runFetch (threshold : Nat) (evs : List FetchEvent) : FState :=
  evs.foldl (fetchStep threshold) initF

/-- C2 counterexample: with a configured threshold of 2, a single leaf-stage
fetch failure already sets the cancellation signal (the fetcher sets it
inside its own except block, independently of the counter), while the error
count is only 1; so the signal is not set if and only if the count reaches
the threshold, and a single failure under a threshold greater than 1 does
set the signal. -/
theorem threshold_iff_counterexample :
    ¬ (((runFetch 2 [FetchEvent.leafFail "u" "e"]).stop = true) ↔
        2 ≤ (runFetch 2 [FetchEvent.leafFail "u" "e"]).errors) := by
  decide

/-- C2 amended: every failed fetch or extraction operation increments the
error counter by exactly one, while an already-cancelled call is not caught
by the stage handlers and changes neither the counter nor the signal.  Any
fetch failure sets the cancellation signal unconditionally (the fetcher
itself sets it, and the listing and expanding handlers set it again), a
listing or expanding extraction failure sets it unconditionally, and only a
leaf-stage extraction failure gates its set on the counter reaching the
configured threshold. -/
theorem error_counter_and_signal (threshold : Nat) (st : FState) (u d : String) :
    (fetchStep threshold st (FetchEvent.listFail u d)).errors = st.errors + 1 ∧
    (fetchStep threshold st (FetchEvent.leafFail u d)).errors = st.errors + 1 ∧
    (fetchStep threshold st FetchEvent.listExtractFail).errors = st.errors + 1 ∧
    (fetchStep threshold st FetchEvent.leafExtractFail).errors = st.errors + 1 ∧
    (fetchStep threshold st FetchEvent.entryCancelled).errors = st.errors ∧
    (fetchStep threshold st (FetchEvent.listFail u d)).stop = true ∧
    (fetchStep threshold st (FetchEvent.leafFail u d)).stop = true ∧
    (fetchStep threshold st FetchEvent.listExtractFail).stop = true ∧
    (fetchStep threshold st FetchEvent.leafExtractFail).stop
      = (st.stop || decide (threshold ≤ st.errors + 1)) ∧
    (fetchStep threshold st FetchEvent.entryCancelled).stop = st.stop := by
  obtain ⟨s, e, o⟩ := st
  cases s <;>
    simp [fetchStep, get_fail_effect, page_handler, deck_handler] <;>
    split <;> simp_all

/-! For C6 the invariant is: while the signal is unset nothing has been
announced, and never more than one announcement happens, because the
announce-and-set block of _get is atomic and guarded by the signal. -/

theorem fetchStep_announce_invariant (threshold : Nat) (st : FState) (e : FetchEvent)
    (h1 : st.stop = false → st.out = []) (h2 : st.out.length ≤ 1) :
    ((fetchStep threshold st e).stop = false → (fetchStep threshold st e).out = []) ∧
    (fetchStep threshold st e).out.length ≤ 1 := by
  obtain ⟨s, er, o⟩ := st
  cases s
  · have ho : o = [] := h1 rfl
    subst ho
    cases e
    case leafExtractFail =>
      simp only [fetchStep, deck_handler]
      split <;> simp
    all_goals simp_all [fetchStep, get_fail_effect, page_handler, deck_handler]
  · cases e <;>
      simp_all [fetchStep, get_fail_effect, page_handler, deck_handler]

theorem runFetch_aux_announce (threshold : Nat) (evs : List FetchEvent) (st : FState)
    (h1 : st.stop = false → st.out = []) (h2 : st.out.length ≤ 1) :
    ((evs.foldl (fetchStep threshold) st).stop = false →
      (evs.foldl (fetchStep threshold) st).out = []) ∧
    (evs.foldl (fetchStep threshold) st).out.length ≤ 1 := by
  induction evs generalizing st with
  | nil => exact ⟨h1, h2⟩
  | cons e rest ih =>
      have h := fetchStep_announce_invariant threshold st e h1 h2
      exact ih (fetchStep threshold st e) h.1 h.2

/-- C6: over any sequence of failure-handling events from the start of a
run, at most one fail-fast announcement is ever emitted; a fetch failure
that observes the signal unset emits exactly one announcement carrying the
failing url and error detail and sets the signal, and a fetch failure that
observes the signal set emits nothing. -/
theorem failfast_announced_at_most_once (threshold : Nat) (evs : List FetchEvent)
    (st : FState) (u d : String) :
    (runFetch threshold evs).out.length ≤ 1 ∧
    (st.stop = false →
      (fetchStep threshold st (FetchEvent.listFail u d)).out = st.out ++ [(u, d)] ∧
      (fetchStep threshold st (FetchEvent.listFail u d)).stop = true ∧
      (fetchStep threshold st (FetchEvent.leafFail u d)).out = st.out ++ [(u, d)] ∧
      (fetchStep threshold st (FetchEvent.leafFail u d)).stop = true) ∧
    (st.stop = true →
      (fetchStep threshold st (FetchEvent.listFail u d)).out = st.out ∧
      (fetchStep threshold st (FetchEvent.leafFail u d)).out = st.out) := by
  refine ⟨(runFetch_aux_announce threshold evs initF (fun _ => rfl) (by simp [initF])).2,
    fun hs => ?_, fun hs => ?_⟩
  · simp [fetchStep, get_fail_effect, page_handler, deck_handler, hs]
  · simp [fetchStep, get_fail_effect, page_handler, deck_handler, hs]

theorem failfast_announced_at_most_once_witness :
    (runFetch 1 [FetchEvent.leafFail "u1" "boom", FetchEvent.listFail "u2" "crash"]).out.length ≤ 1 ∧
    (fetchStep 1 initF (FetchEvent.leafFail "u1" "boom")).out = initF.out ++ [("u1", "boom")] ∧
    (fetchStep 1 ⟨true, 1, [("u1", "boom")]⟩ (FetchEvent.listFail "u2" "crash")).out
      = [("u1", "boom")] := by
  refine ⟨(failfast_announced_at_most_once 1
      [FetchEvent.leafFail "u1" "boom", FetchEvent.listFail "u2" "crash"]
      initF "x" "y").1, ?_, ?_⟩
  · exact ((failfast_announced_at_most_once 1 [] initF "u1" "boom").2.1 rfl).2.2.1
  · exact ((failfast_announced_at_most_once 1 [] ⟨true, 1, [("u1", "boom")]⟩
      "u2" "crash").2.2 rfl).1

/-! ## Orchestrator skeleton: run (src/lsearch.py lines 201-304)

The sequential spine of run, with each concurrent stage abstracted by the
observations the spine makes of it:

  - first      : the initial `first = await _get(session, pacer, LIST_URL,
                 stop_evt)` at line 219.  It is not wrapped in any try, so
                 if it raises, `run` raises.
  - per stage  : `collected` is the list the tasks extended in completion
                 order; `stopAtJoin` is the state of stop_evt when the
                 gather returns; `cancelEscape` records whether some task of
                 the stage entered _get with the signal already set.  Such a
                 task raises asyncio.CancelledError, which the task handler
                 `except Exception` does not catch (CancelledError derives
                 from BaseException in Python 3.8+), so the child task ends
                 cancelled, `await asyncio.gather(...)` re-raises
                 CancelledError, and `run` propagates it: the lines after
                 the gather never execute.

The records list `matches` starts empty and is only ever appended to by
stage-3 tasks, which is why the two early returns deliver it as []. -/

inductive RunExc where
  | fetchError
  | cancelledError
  deriving Repr, DecidableEq

structure StageObs where
  collected : List String
  cancelEscape : Bool
  stopAtJoin : Bool
  deriving Repr

structure Stage3Obs where
  records : List DeckRecord
  cancelEscape : Bool
  deriving Repr

def run_model (first : Except String String) (s1 s2 : StageObs) (s3 : Stage3Obs) :
    Except RunExc (Nat × Nat × List DeckRecord) :=
  let accRecords : List DeckRecord := []
  match first with
  | Except.error _ => Except.error RunExc.fetchError
  | Except.ok _ =>
    if s1.cancelEscape then Except.error RunExc.cancelledError
    else
      let uniq_tourneys := dedupe_keep_order s1.collected
      if s1.stopAtJoin then Except.ok (0, 0, accRecords)
      else
        if s2.cancelEscape then Except.error RunExc.cancelledError
        else
          let uniq_decks := dedupe_keep_order s2.collected
          if s2.stopAtJoin then Except.ok (uniq_tourneys.length, uniq_decks.length, accRecords)
          else
            if s3.cancelEscape then Except.error RunExc.cancelledError
            else Except.ok (uniq_tourneys.length, uniq_decks.length, s3.records)

/-- C3: in the schedule where the run reaches the leaf stage and some deck
task, having passed its entry check before the abort, enters the fetcher
after a sibling failure set the cancellation signal, the orchestrator does
not return normally: the CancelledError raised by the fetcher escapes the
stage handler and propagates to the caller, so no partial result is
delivered.  This exhibits the code bug behind the claim. -/
theorem run_cancelled_escapes :
    run_model (Except.ok "html")
      ⟨["t1"], false, false⟩ ⟨["d1", "d2"], false, false⟩ ⟨[], true⟩
      = Except.error RunExc.cancelledError ∧
    run_model (Except.error "connection reset")
      ⟨[], false, false⟩ ⟨[], false, false⟩ ⟨[], false⟩
      = Except.error RunExc.fetchError := by
  exact ⟨rfl, rfl⟩

/-- C4: if the listing-stage gather completed (no escaping cancellation) and
the cancellation signal is set at its join point, the orchestrator returns
normally with exactly 0 sub-resources, 0 leaves and the empty record list,
and the result does not depend on the expanding and collecting stages,
which never run. -/
theorem listing_abort_short_circuits (firstHtml : String) (s1 : StageObs)
    (s2 : StageObs) (s3 : Stage3Obs)
    (hesc : s1.cancelEscape = false) (hstop : s1.stopAtJoin = true) :
    run_model (Except.ok firstHtml) s1 s2 s3 = Except.ok (0, 0, []) ∧
    (∀ s2a s3a, run_model (Except.ok firstHtml) s1 s2 s3
      = run_model (Except.ok firstHtml) s1 s2a s3a) := by
  constructor
  · simp [run_model, hesc, hstop]
  · intro s2a s3a
    simp [run_model, hesc, hstop]

theorem listing_abort_short_circuits_witness :
    (StageObs.mk ["t1", "t1", "t2"] false true).cancelEscape = false ∧
    (StageObs.mk ["t1", "t1", "t2"] false true).stopAtJoin = true ∧
    run_model (Except.ok "page") (StageObs.mk ["t1", "t1", "t2"] false true)
      ⟨["d"], false, false⟩ ⟨[], false⟩ = Except.ok (0, 0, []) := by
  refine ⟨rfl, rfl, ?_⟩
  exact (listing_abort_short_circuits "page" ⟨["t1", "t1", "t2"], false, true⟩
    ⟨["d"], false, false⟩ ⟨[], false⟩ rfl rfl).1

/-! ## RateLimiter: FixedPacer.acquire (src/lsearch.py lines 73-95)

Python:
    class FixedPacer:
        def __init__(self, rps):
            self.rps = max(1, int(rps))
            self.starts = deque()
            self.lock = asyncio.Lock()
        async def acquire(self):
            while True:
                async with self.lock:
                    now = time.monotonic()
                    while self.starts and (now - self.starts[0] >= 1.0):
                        self.starts.popleft()
                    if len(self.starts) < self.rps:
                        self.starts.append(now)
                        ...jitter sleep...
                        return
                    sleep_for = 1.0 - (now - self.starts[0])
                await asyncio.sleep(max(0.001, sleep_for))

The lock serializes every check, so a whole concurrent execution is a
sequence of critical-section runs at nondecreasing monotonic-clock instants;
paceRun folds the per-call body over that sequence of instants and returns
the list of admission timestamps, whatever mix of callers and retries
produced the instants.  Clock values are modelled as rationals. -/

def evict (now : ℚ) : List ℚ → List ℚ
  | [] => []
  | t :: ts => if 1 ≤ now - t then evict now ts else t :: ts

def paceRun (cap : Nat) (starts : List ℚ) : List ℚ → List ℚ
  | [] => []
  | now :: rest =>
    if (evict now starts).length < cap then
      now :: paceRun cap (evict now starts ++ [now]) rest
    else
      paceRun cap (evict now starts) rest

/-- The constructor clamp self.rps = max(1, int(rps)). -/
def pacerCap (rps : Int) : Nat := max 1 rps.toNat

/-- Membership of a timestamp in the trailing one-second window ending at w. -/
def inWindow (w t : ℚ) : Bool := decide (w - 1 < t ∧ t ≤ w)

theorem inWindow_iff {w t : ℚ} : inWindow w t = true ↔ (w - 1 < t ∧ t ≤ w) := by
  simp [inWindow]

theorem evict_sublist (now : ℚ) (l : List ℚ) : (evict now l).Sublist l := by
  induction l with
  | nil => simp [evict]
  | cons t ts ih =>
      by_cases h : 1 ≤ now - t
      · simp only [evict, if_pos h]
        exact ih.trans (List.sublist_cons_self t ts)
      · simp [evict, if_neg h]

theorem mem_evict {now : ℚ} {l : List ℚ} {x : ℚ} (h : x ∈ evict now l) : x ∈ l :=
  (evict_sublist now l).mem h

theorem evict_sorted {now : ℚ} {l : List ℚ} (h : l.Sorted (· ≤ ·)) :
    (evict now l).Sorted (· ≤ ·) :=
  h.sublist (evict_sublist now l)

/-- Eviction at instant now only drops timestamps at least one second old,
and those lie outside every window ending no earlier than now. -/
theorem evict_countP_inWindow {now w : ℚ} (hnw : now ≤ w) (l : List ℚ) :
    (evict now l).countP (inWindow w) = l.countP (inWindow w) := by
  induction l with
  | nil => rfl
  | cons t ts ih =>
      by_cases h : 1 ≤ now - t
      · have ht : inWindow w t = false := by
          simp only [inWindow, decide_eq_false_iff_not, not_and, not_le]
          intro hlt
          linarith
        simp only [evict, if_pos h, List.countP_cons, ht]
        simpa using ih
      · simp [evict, if_neg h]

theorem mem_paceRun {cap : Nat} {starts times : List ℚ} {x : ℚ}
    (h : x ∈ paceRun cap starts times) : x ∈ times := by
  induction times generalizing starts with
  | nil => simpa [paceRun] using h
  | cons now rest ih =>
      by_cases hc : (evict now starts).length < cap
      · simp only [paceRun, if_pos hc, List.mem_cons] at h
        rcases h with rfl | h
        · exact List.mem_cons_self x rest
        · exact List.mem_cons_of_mem now (ih h)
      · simp only [paceRun, if_neg hc] at h
        exact List.mem_cons_of_mem now (ih h)

/-- Main induction for the rate bound.  The deque always holds every past
admission that is still inside the window of any upcoming admission, so
whenever a window contains at least one admission, the admissions in it plus
the matching deque entries at its start stay within the capacity. -/
theorem paceRun_window_aux (cap : Nat) (times : List ℚ) :
    ∀ (starts : List ℚ) (w : ℚ),
    times.Sorted (· ≤ ·) → starts.Sorted (· ≤ ·) →
    (∀ s ∈ starts, ∀ n ∈ times, s ≤ n) →
    1 ≤ (paceRun cap starts times).countP (inWindow w) →
    starts.countP (inWindow w) + (paceRun cap starts times).countP (inWindow w) ≤ cap := by
  induction times with
  | nil =>
      intro starts w _ _ _ hpos
      simp [paceRun] at hpos
  | cons now rest ih =>
      intro starts w hts hss hle hpos
      obtain ⟨hnowle, hrest⟩ := List.sorted_cons.mp hts
      have hE_sorted : (evict now starts).Sorted (· ≤ ·) := evict_sorted hss
      have hE_le : ∀ s ∈ evict now starts, ∀ n ∈ rest, s ≤ n := by
        intro s hs n hn
        exact hle s (mem_evict hs) n (List.mem_cons_of_mem now hn)
      have hE_now : ∀ s ∈ evict now starts, s ≤ now := by
        intro s hs
        exact hle s (mem_evict hs) now (List.mem_cons_self now rest)
      by_cases hcap : (evict now starts).length < cap
      · -- admission: append now, recurse with the grown deque
        simp only [paceRun, if_pos hcap] at hpos ⊢
        have hsorted2 : (evict now starts ++ [now]).Sorted (· ≤ ·) := by
          refine List.pairwise_append.mpr ⟨hE_sorted, List.pairwise_singleton _ _, ?_⟩
          intro a ha b hb
          rcases List.mem_singleton.mp hb with rfl
          exact hE_now a ha
        have hle2 : ∀ s ∈ evict now starts ++ [now], ∀ n ∈ rest, s ≤ n := by
          intro s hs n hn
          rcases List.mem_append.mp hs with hs1 | hs1
          · exact hE_le s hs1 n hn
          · rcases List.mem_singleton.mp hs1 with rfl
            exact hnowle n hn
        rw [List.countP_cons] at hpos ⊢
        by_cases hw : inWindow w now = true
        · have hw2 := inWindow_iff.mp hw
          have hEc : (evict now starts).countP (inWindow w) = starts.countP (inWindow w) :=
            evict_countP_inWindow hw2.2 starts
          rw [if_pos hw] at hpos ⊢
          by_cases hA : 1 ≤ (paceRun cap (evict now starts ++ [now]) rest).countP (inWindow w)
          · have hrec := ih (evict now starts ++ [now]) w hrest hsorted2 hle2 hA
            rw [List.countP_append, List.countP_cons, List.countP_nil, if_pos hw] at hrec
            omega
          · have hcount : starts.countP (inWindow w) ≤ (evict now starts).length := by
              rw [← hEc]
              exact List.countP_le_length _
            omega
        · -- now itself is outside the window
          rw [if_neg hw] at hpos ⊢
          rcases le_or_lt now w with hnw | hwn
          · have hEc : (evict now starts).countP (inWindow w) = starts.countP (inWindow w) :=
              evict_countP_inWindow hnw starts
            have hrec := ih (evict now starts ++ [now]) w hrest hsorted2 hle2 (by omega)
            rw [List.countP_append, List.countP_cons, List.countP_nil, if_neg hw] at hrec
            omega
          · exfalso
            have hz : (paceRun cap (evict now starts ++ [now]) rest).countP (inWindow w) = 0 := by
              refine List.countP_eq_zero.mpr ?_
              intro a ha
              have hna : now ≤ a := hnowle a (mem_paceRun ha)
              simp only [inWindow, decide_eq_true_eq, not_and, not_le]
              intro _
              linarith
            omega
      · -- full window: no admission at this instant, deque shrinks to E
        simp only [paceRun, if_neg hcap] at hpos ⊢
        rcases le_or_lt now w with hnw | hwn
        · have hEc : (evict now starts).countP (inWindow w) = starts.countP (inWindow w) :=
            evict_countP_inWindow hnw starts
          have hrec := ih (evict now starts) w hrest hE_sorted hE_le hpos
          omega
        · exfalso
          have hz : (paceRun cap (evict now starts) rest).countP (inWindow w) = 0 := by
            refine List.countP_eq_zero.mpr ?_
            intro a ha
            have hna : now ≤ a := hnowle a (mem_paceRun ha)
            simp only [inWindow, decide_eq_true_eq, not_and, not_le]
            intro _
            linarith
          omega

/-- C1: for any serialized sequence of acquire checks at nondecreasing
monotonic-clock instants, under capacity cap the number of admissions whose
timestamps fall within any trailing one-second window never exceeds cap,
regardless of how many concurrent callers produced the checks. -/
theorem pacer_trailing_window_bound (cap : Nat) (times : List ℚ) (w : ℚ)
    (h : times.Sorted (· ≤ ·)) :
    (paceRun cap [] times).countP (inWindow w) ≤ cap := by
  by_cases h1 : 1 ≤ (paceRun cap [] times).countP (inWindow w)
  · have hrec := paceRun_window_aux cap times [] w h (by simp) (by simp) h1
    simpa using hrec
  · omega

theorem pacer_trailing_window_bound_witness :
    List.Sorted (· ≤ ·) [(0 : ℚ), 0, 1, 2] ∧
    (paceRun (pacerCap 2) [] [(0 : ℚ), 0, 1, 2]).countP (inWindow 2) ≤ pacerCap 2 :=
  ⟨by decide, pacer_trailing_window_bound (pacerCap 2) [(0 : ℚ), 0, 1, 2] 2 (by decide)⟩

/-! ## Lock discipline of FixedPacer.acquire (src/lsearch.py lines 80-95)

A small-step interleaving model of two tasks running acquire concurrently.
The control locations follow the code:

  - start       : before `async with self.lock`
  - crit        : holding the lock, about to run the evict/check body
                  (runs without suspension, so it is one atomic step)
  - jitterSleep : after appending, inside `await asyncio.sleep(j)` for a
                  positive jitter draw.  In the source this sleep is inside
                  the `async with self.lock` block (lines 82-94), so the
                  task still holds the lock here.
  - retryWait   : after a full-window check, inside the retry
                  `await asyncio.sleep(...)` at line 95, outside the lock
  - done        : acquire returned

The critical-section instant now is nondeterministic (clock progression is
irrelevant to the lock discipline), and the jitter draw j is
nondeterministic: j > 0 takes the sleeping path, j <= 0 returns at once. -/

inductive Loc where
  | start
  | crit
  | jitterSleep
  | retryWait
  | done
  deriving Repr, DecidableEq

structure PConf where
  lock : Option (Fin 2)
  starts : List ℚ
  loc : Fin 2 → Loc

def pInit : PConf := ⟨none, [], fun _ => Loc.start⟩

inductive PStep (cap : Nat) : PConf → PConf → Prop where
  | enterLock (c : PConf) (i : Fin 2) :
      c.loc i = Loc.start → c.lock = none →
      PStep cap c ⟨some i, c.starts, Function.update c.loc i Loc.crit⟩
  | admitJitter (c : PConf) (i : Fin 2) (now : ℚ) :
      c.loc i = Loc.crit → c.lock = some i →
      (evict now c.starts).length < cap →
      PStep cap c ⟨some i, evict now c.starts ++ [now], Function.update c.loc i Loc.jitterSleep⟩
  | admitNoJitter (c : PConf) (i : Fin 2) (now : ℚ) :
      c.loc i = Loc.crit → c.lock = some i →
      (evict now c.starts).length < cap →
      PStep cap c ⟨none, evict now c.starts ++ [now], Function.update c.loc i Loc.done⟩
  | windowFull (c : PConf) (i : Fin 2) (now : ℚ) :
      c.loc i = Loc.crit → c.lock = some i →
      ¬ (evict now c.starts).length < cap →
      PStep cap c ⟨none, evict now c.starts, Function.update c.loc i Loc.retryWait⟩
  | jitterWake (c : PConf) (i : Fin 2) :
      c.loc i = Loc.jitterSleep → c.lock = some i →
      PStep cap c ⟨none, c.starts, Function.update c.loc i Loc.done⟩
  | retryWake (c : PConf) (i : Fin 2) :
      c.loc i = Loc.retryWait →
      PStep cap c ⟨c.lock, c.starts, Function.update c.loc i Loc.start⟩

def pacerReachable (cap : Nat) (c : PConf) : Prop :=
  Relation.ReflTransGen (PStep cap) pInit c

/-- C8 counterexample: with capacity 1, after task 0 enters the lock and is
admitted with a positive jitter draw, a configuration is reached in which
task 0 is sleeping its jitter while still holding the lock, and from that
configuration no step admits the concurrent task 1 (its only pending move,
taking the lock, is blocked): the jitter sleep is performed while holding
the exclusion, and no concurrent caller can be admitted during it. -/
theorem jitter_sleep_holds_lock_counterexample :
    ∃ c : PConf, pacerReachable 1 c ∧ c.loc 0 = Loc.jitterSleep ∧ c.lock = some 0 ∧
      ∀ d : PConf, PStep 1 c d → d.starts = c.starts ∧ d.loc 1 = Loc.start := by
  refine ⟨⟨some 0, evict 0 [] ++ [0],
      Function.update (Function.update (fun _ => Loc.start) 0 Loc.crit) 0 Loc.jitterSleep⟩,
    ?_, by simp, rfl, ?_⟩
  · refine Relation.ReflTransGen.tail (Relation.ReflTransGen.tail Relation.ReflTransGen.refl
      (PStep.enterLock pInit 0 rfl rfl)) ?_
    exact PStep.admitJitter _ 0 0 (by simp) rfl (by simp [evict])
  · intro d hd
    cases hd with
    | enterLock i h1 h2 => exact absurd h2 (by simp)
    | admitJitter i now h1 h2 h3 =>
        exfalso
        fin_cases i <;> simp_all [Function.update]
    | admitNoJitter i now h1 h2 h3 =>
        exfalso
        fin_cases i <;> simp_all [Function.update]
    | windowFull i now h1 h2 h3 =>
        exfalso
        fin_cases i <;> simp_all [Function.update]
    | jitterWake i h1 h2 =>
        have hi : i = 0 := by
          fin_cases i <;> simp_all [Function.update]
        subst hi
        exact ⟨rfl, by simp [Function.update]⟩
    | retryWake i h1 =>
        exfalso
        fin_cases i <;> simp_all [Function.update]

/-- The lock invariant: any task inside the critical section or the jitter
sleep is the lock holder. -/
def pacerInv (c : PConf) : Prop :=
  ∀ i, (c.loc i = Loc.crit ∨ c.loc i = Loc.jitterSleep) → c.lock = some i

theorem pStep_preserves_inv {cap : Nat} {c d : PConf}
    (h : PStep cap c d) (hinv : pacerInv c) : pacerInv d := by
  cases h with
  | enterLock i h1 h2 =>
      intro j hj
      by_cases hji : j = i
      · subst hji; rfl
      · simp only [Function.update_noteq hji] at hj
        exact absurd (hinv j hj) (by simp [h2])
  | admitJitter i now h1 h2 h3 =>
      intro j hj
      by_cases hji : j = i
      · subst hji; rfl
      · simp only [Function.update_noteq hji] at hj
        have h4 := (hinv j hj).symm.trans h2
        exact absurd (Option.some.inj h4) hji
  | admitNoJitter i now h1 h2 h3 =>
      intro j hj
      by_cases hji : j = i
      · subst hji; simp at hj
      · simp only [Function.update_noteq hji] at hj
        have h4 := (hinv j hj).symm.trans h2
        exact absurd (Option.some.inj h4) hji
  | windowFull i now h1 h2 h3 =>
      intro j hj
      by_cases hji : j = i
      · subst hji; simp at hj
      · simp only [Function.update_noteq hji] at hj
        have h4 := (hinv j hj).symm.trans h2
        exact absurd (Option.some.inj h4) hji
  | jitterWake i h1 h2 =>
      intro j hj
      by_cases hji : j = i
      · subst hji; simp at hj
      · simp only [Function.update_noteq hji] at hj
        have h4 := (hinv j hj).symm.trans h2
        exact absurd (Option.some.inj h4) hji
  | retryWake i h1 =>
      intro j hj
      by_cases hji : j = i
      · subst hji; simp at hj
      · simp only [Function.update_noteq hji] at hj
        exact hinv j hj

/-- C8 amended: in every reachable configuration the check-and-append is
mutually exclusive between acquire calls, and the post-admission jitter
sleep is performed while still holding that exclusion, so a task in its
jitter sleep is the lock holder and no two tasks are simultaneously inside
the check or the jitter sleep. -/
theorem pacer_mutex_and_jitter_holds_lock (cap : Nat) (c : PConf)
    (h : pacerReachable cap c) :
    (∀ i, (c.loc i = Loc.crit ∨ c.loc i = Loc.jitterSleep) → c.lock = some i) ∧
    (∀ i j, (c.loc i = Loc.crit ∨ c.loc i = Loc.jitterSleep) →
      (c.loc j = Loc.crit ∨ c.loc j = Loc.jitterSleep) → i = j) := by
  have hinv : pacerInv c := by
    induction h with
    | refl =>
        intro i hi
        simp [pInit] at hi
    | tail hab hbc ih => exact pStep_preserves_inv hbc ih
  refine ⟨hinv, fun i j hi hj => ?_⟩
  have h1 := hinv i hi
  have h2 := hinv j hj
  exact Option.some.inj (h1.symm.trans h2)

def pacerAfterEnter : PConf := ⟨some 0, [], Function.update (fun _ => Loc.start) 0 Loc.crit⟩

theorem pacer_mutex_and_jitter_holds_lock_witness :
    pacerAfterEnter.lock = some 0 := by
  have hreach : pacerReachable 1 pacerAfterEnter :=
    Relation.ReflTransGen.tail Relation.ReflTransGen.refl (PStep.enterLock pInit 0 rfl rfl)
  exact (pacer_mutex_and_jitter_holds_lock 1 pacerAfterEnter hreach).1 0
    (Or.inl (by simp [pacerAfterEnter]))

end LSearch
